import Mathlib

/-!
Verification of the BitNames sidechain core (`src/bitnames.rs`).

The core owns a single persistent table `key_to_value : Hash → Hash` inside a
heed environment and exposes four operations: `validate_keys_unique`,
`validate_filled_transaction`, `validate_body` (read-only, taking `&self` and
a `RoTxn`) and `connect_body` (taking a `RwTxn`).

Shallow embedding choices:
- `Hash` (`[u8; 32]` in the source) is modelled as `Nat` with decidable
  equality; its byte structure is never inspected by the core.
- The heed database is modelled as a finite map `Table := Hash → Option Hash`
  passed explicitly.  Read-only methods take the table and return only the
  `Result`, mirroring `&self` + `RoTxn` (so they cannot mutate the table by
  construction); `connect_body` returns the updated table, mirroring `RwTxn`.
- Storage-engine failures (`Error::Heed`) are out of scope: in this model
  `Database::get` and `Database::put` always succeed, matching the claims'
  assumption that the underlying storage lookups do not fail.
-/

namespace BitNames

/-- `Hash` is `ddk::types::Hash`, a 32-byte array; modelled as `Nat`. -/
abbrev Hash := Nat

/-- Addresses are opaque to this core; modelled as `Nat`. -/
abbrev Address := Nat

/-- `OutPoint` (txid and vout, or deposit/coinbase equivalents) is opaque to
this core; modelled as `Nat`. -/
abbrev OutPoint := Nat

/-- The custom sidechain output content from `bitnames.rs`:
`enum BitName { KeyValue { key: Hash, value: Hash } }`. -/
inductive BitName where
  | keyValue (key : Hash) (value : Hash)
  deriving DecidableEq, Repr

/-- `ddk::types::Content<C>` instantiated at `C = BitName`:
`Value(u64)`, `Withdrawal { value, main_address, main_fee }`, `Custom(C)`. -/
inductive Content where
  | value (v : Nat)
  | withdrawal (value : Nat) (mainAddress : Address) (mainFee : Nat)
  | custom (c : BitName)
  deriving DecidableEq, Repr

/-- `ddk::types::Output<C>`: an address together with output content. -/
structure Output where
  address : Address
  content : Content
  deriving DecidableEq, Repr

/-- `ddk::types::Transaction<C>`: inputs and outputs.  Only `outputs` is ever
inspected by this core. -/
structure Transaction where
  inputs : List OutPoint
  outputs : List Output
  deriving DecidableEq, Repr

/-- `ddk::types::FilledTransaction<C>`: a transaction annotated with the
resolved output data of its spent utxos. -/
structure FilledTransaction where
  spent_utxos : List Output
  transaction : Transaction
  deriving DecidableEq, Repr

/-- `ddk::types::Body<A, C>`: the core only ever reads its ordered list of
transactions (headers, authorizations and coinbase are handled by ddk). -/
structure Body where
  transactions : List Transaction
  deriving DecidableEq, Repr

/-- The `key_to_value` heed database, modelled as a map from keys to values. -/
abbrev Table := Hash → Option Hash

/-- A freshly created, empty `key_to_value` database. -/
def Table.empty : Table := fun _ => none

/-- `Database::put`: insert `(key, value)`, overwriting any existing entry. -/
def Table.put (st : Table) (key value : Hash) : Table :=
  fun k => if k = key then some value else st k

/-- The error enum of `bitnames.rs`: `Heed(heed::Error)` and
`KeyAlreadyExists`.  The heed payload is abstracted away (storage never fails
in this model, so `Error.heed` is never produced). -/
inductive Error where
  | heed
  | keyAlreadyExists
  deriving DecidableEq, Repr

/-- The loop body of `validate_keys_unique`: scan the outputs in order; on the
first `Custom(KeyValue { key, .. })` whose key is already in the table, return
`Err(Error::KeyAlreadyExists)`; skip all other content. -/
def checkOutputs (st : Table) : List Output → Except Error Unit
  | [] => Except.ok ()
  | output :: rest =>
    match output.content with
    | Content.custom (BitName.keyValue key _) =>
      if (st key).isSome then Except.error Error.keyAlreadyExists
      else checkOutputs st rest
    | _ => checkOutputs st rest

/-- `BitNamesState::validate_keys_unique(&self, txn, transaction)`. -/
def validate_keys_unique (st : Table) (transaction : Transaction) :
    Except Error Unit :=
  checkOutputs st transaction.outputs

/-- `BitNamesState::validate_filled_transaction(&self, txn, _height, _state,
transaction)`: forwards to `validate_keys_unique` on the inner transaction;
`_height` and `_state` are accepted but unused. -/
def validate_filled_transaction (st : Table) (height : Nat) {σ : Type}
    (state : σ) (transaction : FilledTransaction) : Except Error Unit :=
  match validate_keys_unique st transaction.transaction with
  | Except.ok _ => Except.ok ()
  | Except.error e => Except.error e

/-- The loop of `validate_body`: run `validate_keys_unique` on each
transaction against the same snapshot, propagating the first error. -/
def validateTransactions (st : Table) : List Transaction → Except Error Unit
  | [] => Except.ok ()
  | t :: rest =>
    match validate_keys_unique st t with
    | Except.ok _ => validateTransactions st rest
    | Except.error e => Except.error e

/-- `BitNamesState::validate_body(&self, txn, _height, _state, body)`. -/
def validate_body (st : Table) (height : Nat) {σ : Type} (state : σ)
    (body : Body) : Except Error Unit :=
  validateTransactions st body.transactions

/-- The inner loop of `connect_body`: `put` every `KeyValue` claim of the
outputs, in order, skipping other content. -/
def connectOutputs (st : Table) : List Output → Table
  | [] => st
  | output :: rest =>
    match output.content with
    | Content.custom (BitName.keyValue key value) =>
      connectOutputs (st.put key value) rest
    | _ => connectOutputs st rest

/-- The outer loop of `connect_body`: process transactions in order. -/
def connectTransactions (st : Table) : List Transaction → Table
  | [] => st
  | t :: rest => connectTransactions (connectOutputs st t.outputs) rest

/-- `BitNamesState::connect_body(&self, txn, _height, _state, body)`: insert
every key-value claim of the body into the table; `_height` and `_state` are
unused, and in this model the write transaction cannot fail. -/
def connect_body (st : Table) (height : Nat) {σ : Type} (state : σ)
    (body : Body) : Table :=
  connectTransactions st body.transactions

/-- The key-value claim carried by an output, if any. -/
def Output.claim (o : Output) : Option (Hash × Hash) :=
  match o.content with
  | Content.custom (BitName.keyValue key value) => some (key, value)
  | _ => none

/-- The claim pairs of a transaction, in output order. -/
def txClaims (t : Transaction) : List (Hash × Hash) :=
  t.outputs.filterMap Output.claim

/-- The claim pairs of a list of transactions, in transaction order then
output order. -/
def txListClaims : List Transaction → List (Hash × Hash)
  | [] => []
  | t :: rest => txClaims t ++ txListClaims rest

/-- The claim pairs of a body, in iteration order of `connect_body`. -/
def bodyClaims (b : Body) : List (Hash × Hash) :=
  txListClaims b.transactions

/-- The claim pairs of a sequence of bodies, in commit order. -/
def chainClaims : List Body → List (Hash × Hash)
  | [] => []
  | b :: rest => bodyClaims b ++ chainClaims rest

/-- Insert a list of claim pairs into the table in order, later entries
overwriting earlier ones (the iteration order of `connect_body`). -/
def insertClaims (st : Table) : List (Hash × Hash) → Table
  | [] => st
  | (k, v) :: rest => insertClaims (st.put k v) rest

/-- The value bound to `k` by the last pair of key `k` in the list, if any. -/
def lookupLast : List (Hash × Hash) → Hash → Option Hash
  | [], _ => none
  | (k', v) :: rest, k =>
    match lookupLast rest k with
    | some v' => some v'
    | none => if k = k' then some v else none

/-- A sequence of bodies each of which validates (`validate_body`) against the
table state left by committing (`connect_body`) all of its predecessors. -/
def validatedChain (st : Table) : List Body → Prop
  | [] => True
  | b :: rest =>
    validate_body st 0 () b = Except.ok () ∧
    validatedChain (connect_body st 0 () b) rest

/-- Commit a sequence of bodies in order. -/
def applyBodies (st : Table) : List Body → Table
  | [] => st
  | b :: rest => applyBodies (connect_body st 0 () b) rest

/-- Erase the value field of every key-value claim of a content item,
keeping everything else (used to state value-independence of validation). -/
def eraseContent : Content → Content
  | Content.custom (BitName.keyValue key _) =>
    Content.custom (BitName.keyValue key 0)
  | c => c

/-- Erase claim values in an output. -/
def eraseOutput (o : Output) : Output :=
  ⟨o.address, eraseContent o.content⟩

/-- Erase claim values in a transaction: two transactions are identical
except for the value fields of their claims iff they have equal erasures. -/
def eraseValues (t : Transaction) : Transaction :=
  ⟨t.inputs, t.outputs.map eraseOutput⟩

/-- First argument if present, otherwise the default: the effect on one key
of a batch of `put`s described by `lookupLast`. -/
def overrideWith (o : Option Hash) (d : Option Hash) : Option Hash :=
  match o with
  | some v => some v
  | none => d

deriving instance DecidableEq for Except

/-! ### Helper lemmas -/

lemma overrideWith_some (v : Hash) (d : Option Hash) :
    overrideWith (some v) d = some v := rfl

lemma overrideWith_none (d : Option Hash) : overrideWith none d = d := rfl

lemma checkOutputs_eq_ok_iff (st : Table) (outs : List Output) :
    checkOutputs st outs = Except.ok () ↔
      ∀ o ∈ outs, ∀ k v,
        o.content = Content.custom (BitName.keyValue k v) → st k = none := by
  induction outs with
  | nil => simp [checkOutputs]
  | cons o rest ih =>
    cases hco : o.content with
    | custom c =>
      cases c with
      | keyValue k v =>
        by_cases hk : (st k).isSome
        · have hstep : checkOutputs st (o :: rest) =
              Except.error Error.keyAlreadyExists := by
            simp [checkOutputs, hco, hk]
          rw [hstep]
          constructor
          · intro h; exact absurd h (by simp)
          · intro h
            have h0 := h o (List.mem_cons_self o rest) k v hco
            rw [h0] at hk
            simp at hk
        · have hk0 : st k = none := Option.not_isSome_iff_eq_none.mp hk
          have hstep : checkOutputs st (o :: rest) = checkOutputs st rest := by
            simp [checkOutputs, hco, hk0]
          rw [hstep, ih]
          constructor
          · intro h o' ho' k' v' hc'
            rcases List.mem_cons.mp ho' with rfl | hmem
            · rw [hco] at hc'
              simp only [Content.custom.injEq, BitName.keyValue.injEq] at hc'
              obtain ⟨rfl, rfl⟩ := hc'
              exact hk0
            · exact h o' hmem k' v' hc'
          · intro h o' ho' k' v' hc'
            exact h o' (List.mem_cons_of_mem _ ho') k' v' hc'
    | value n =>
      simp only [checkOutputs, hco, ih]
      constructor
      · intro h o' ho' k' v' hc'
        rcases List.mem_cons.mp ho' with rfl | hmem
        · rw [hco] at hc'; cases hc'
        · exact h o' hmem k' v' hc'
      · intro h o' ho' k' v' hc'
        exact h o' (List.mem_cons_of_mem _ ho') k' v' hc'
    | withdrawal a b c =>
      simp only [checkOutputs, hco, ih]
      constructor
      · intro h o' ho' k' v' hc'
        rcases List.mem_cons.mp ho' with rfl | hmem
        · rw [hco] at hc'; cases hc'
        · exact h o' hmem k' v' hc'
      · intro h o' ho' k' v' hc'
        exact h o' (List.mem_cons_of_mem _ ho') k' v' hc'

lemma checkOutputs_ok_or_error (st : Table) (outs : List Output) :
    checkOutputs st outs = Except.ok () ∨
      checkOutputs st outs = Except.error Error.keyAlreadyExists := by
  induction outs with
  | nil => exact Or.inl rfl
  | cons o rest ih =>
    cases hco : o.content with
    | custom c =>
      cases c with
      | keyValue k v =>
        by_cases hk : (st k).isSome
        · exact Or.inr (by simp [checkOutputs, hco, hk])
        · have hk0 : st k = none := Option.not_isSome_iff_eq_none.mp hk
          have hstep : checkOutputs st (o :: rest) = checkOutputs st rest := by
            simp [checkOutputs, hco, hk0]
          rw [hstep]
          exact ih
    | value n => simpa only [checkOutputs, hco] using ih
    | withdrawal a b c => simpa only [checkOutputs, hco] using ih

lemma validate_keys_unique_eq_ok_iff (st : Table) (t : Transaction) :
    validate_keys_unique st t = Except.ok () ↔
      ∀ o ∈ t.outputs, ∀ k v,
        o.content = Content.custom (BitName.keyValue k v) → st k = none :=
  checkOutputs_eq_ok_iff st t.outputs

lemma validateTransactions_eq_ok_iff (st : Table) (ts : List Transaction) :
    validateTransactions st ts = Except.ok () ↔
      ∀ t ∈ ts, validate_keys_unique st t = Except.ok () := by
  induction ts with
  | nil => simp [validateTransactions]
  | cons t rest ih =>
    cases hv : validate_keys_unique st t with
    | ok u =>
      cases u
      simp only [validateTransactions, hv, ih]
      constructor
      · intro h t' ht'
        rcases List.mem_cons.mp ht' with rfl | hmem
        · exact hv
        · exact h t' hmem
      · intro h t' ht'
        exact h t' (List.mem_cons_of_mem _ ht')
    | error e =>
      simp only [validateTransactions, hv]
      constructor
      · intro h; exact absurd h (by simp)
      · intro h
        have := h t (List.mem_cons_self t rest)
        rw [hv] at this
        exact absurd this (by simp)

lemma mem_txClaims_iff (t : Transaction) (k v : Hash) :
    (k, v) ∈ txClaims t ↔
      ∃ o ∈ t.outputs,
        o.content = Content.custom (BitName.keyValue k v) := by
  simp only [txClaims, List.mem_filterMap]
  constructor
  · rintro ⟨o, ho, hclaim⟩
    refine ⟨o, ho, ?_⟩
    unfold Output.claim at hclaim
    cases hco : o.content with
    | custom c =>
      cases c with
      | keyValue k' v' =>
        rw [hco] at hclaim
        simp at hclaim
        rw [hclaim.1, hclaim.2]
    | value n => rw [hco] at hclaim; cases hclaim
    | withdrawal a b c => rw [hco] at hclaim; cases hclaim
  · rintro ⟨o, ho, hco⟩
    exact ⟨o, ho, by unfold Output.claim; rw [hco]⟩

lemma overrideWith_none_right (o : Option Hash) : overrideWith o none = o := by
  cases o <;> rfl

lemma overrideWith_assoc (a b c : Option Hash) :
    overrideWith (overrideWith a b) c = overrideWith a (overrideWith b c) := by
  cases a <;> rfl

lemma lookupLast_cons (k' v : Hash) (ps : List (Hash × Hash)) (k : Hash) :
    lookupLast ((k', v) :: ps) k =
      overrideWith (lookupLast ps k) (if k = k' then some v else none) := by
  cases h : lookupLast ps k <;> simp [lookupLast, overrideWith, h]

lemma lookupLast_append (ps qs : List (Hash × Hash)) (k : Hash) :
    lookupLast (ps ++ qs) k =
      overrideWith (lookupLast qs k) (lookupLast ps k) := by
  induction ps with
  | nil => simp [lookupLast, overrideWith_none_right]
  | cons p ps ih =>
    obtain ⟨k', v⟩ := p
    simp only [List.cons_append, lookupLast_cons, ih, overrideWith_assoc]

lemma lookupLast_eq_none_of_keys_ne (ps : List (Hash × Hash)) (k : Hash)
    (h : ∀ p ∈ ps, p.1 ≠ k) : lookupLast ps k = none := by
  induction ps with
  | nil => rfl
  | cons p ps ih =>
    obtain ⟨k', v⟩ := p
    have hk' : k' ≠ k := h (k', v) (List.mem_cons_self ..)
    have hrest : lookupLast ps k = none :=
      ih (fun q hq => h q (List.mem_cons_of_mem _ hq))
    simp [lookupLast, hrest, Ne.symm hk']

lemma connectOutputs_apply (st : Table) (outs : List Output) (k : Hash) :
    connectOutputs st outs k =
      overrideWith (lookupLast (outs.filterMap Output.claim) k) (st k) := by
  induction outs generalizing st with
  | nil => simp [connectOutputs, lookupLast, overrideWith]
  | cons o rest ih =>
    cases hco : o.content with
    | custom c =>
      cases c with
      | keyValue k' v' =>
        have hclaim : o.claim = some (k', v') := by
          unfold Output.claim; rw [hco]
        simp only [connectOutputs, hco, List.filterMap_cons, hclaim, ih]
        cases h : lookupLast (rest.filterMap Output.claim) k with
        | some w => simp [lookupLast, h, overrideWith]
        | none =>
          simp only [lookupLast, h, overrideWith, Table.put]
          by_cases hk : k = k' <;> simp [hk]
    | value n =>
      have hclaim : o.claim = none := by unfold Output.claim; rw [hco]
      simp only [connectOutputs, hco, List.filterMap_cons, hclaim, ih]
    | withdrawal a b c =>
      have hclaim : o.claim = none := by unfold Output.claim; rw [hco]
      simp only [connectOutputs, hco, List.filterMap_cons, hclaim, ih]

lemma connectTransactions_apply (st : Table) (ts : List Transaction)
    (k : Hash) :
    connectTransactions st ts k =
      overrideWith (lookupLast (txListClaims ts) k) (st k) := by
  induction ts generalizing st with
  | nil => simp [connectTransactions, txListClaims, lookupLast, overrideWith]
  | cons t rest ih =>
    simp only [connectTransactions, txListClaims, ih, lookupLast_append]
    rw [connectOutputs_apply]
    cases h : lookupLast (txListClaims rest) k with
    | some w => simp [overrideWith]
    | none => simp [overrideWith, txClaims]

lemma connect_body_apply (st : Table) (height : Nat) {σ : Type} (state : σ)
    (b : Body) (k : Hash) :
    connect_body st height state b k =
      overrideWith (lookupLast (bodyClaims b) k) (st k) :=
  connectTransactions_apply st b.transactions k

lemma insertClaims_apply (st : Table) (ps : List (Hash × Hash)) (k : Hash) :
    insertClaims st ps k = overrideWith (lookupLast ps k) (st k) := by
  induction ps generalizing st with
  | nil => simp [insertClaims, lookupLast, overrideWith]
  | cons p rest ih =>
    obtain ⟨k', v⟩ := p
    simp only [insertClaims, ih]
    cases h : lookupLast rest k with
    | some w => simp [lookupLast, h, overrideWith]
    | none =>
      simp only [lookupLast, h, overrideWith, Table.put]
      by_cases hk : k = k' <;> simp [hk]

lemma applyBodies_apply (st : Table) (bodies : List Body) (k : Hash) :
    applyBodies st bodies k =
      overrideWith (lookupLast (chainClaims bodies) k) (st k) := by
  induction bodies generalizing st with
  | nil => simp [applyBodies, chainClaims, lookupLast, overrideWith]
  | cons b rest ih =>
    simp only [applyBodies, chainClaims, ih, lookupLast_append]
    rw [connect_body_apply]
    cases h : lookupLast (chainClaims rest) k with
    | some w => simp [overrideWith]
    | none => simp [overrideWith]

lemma checkOutputs_eraseOutput (st : Table) (outs : List Output) :
    checkOutputs st (outs.map eraseOutput) = checkOutputs st outs := by
  induction outs with
  | nil => rfl
  | cons o rest ih =>
    cases hco : o.content with
    | custom c =>
      cases c with
      | keyValue k v =>
        simp only [List.map_cons, checkOutputs, eraseOutput, eraseContent,
          hco, ih]
    | value n =>
      simp only [List.map_cons, checkOutputs, eraseOutput, eraseContent,
        hco, ih]
    | withdrawal a b c =>
      simp only [List.map_cons, checkOutputs, eraseOutput, eraseContent,
        hco, ih]

lemma validate_keys_unique_erase (st : Table) (t : Transaction) :
    validate_keys_unique st (eraseValues t) = validate_keys_unique st t :=
  checkOutputs_eraseOutput st t.outputs

lemma mem_txListClaims (ts : List Transaction) (p : Hash × Hash) :
    p ∈ txListClaims ts → ∃ t ∈ ts, p ∈ txClaims t := by
  induction ts with
  | nil => intro h; exact absurd h (List.not_mem_nil p)
  | cons t rest ih =>
    intro h
    rcases List.mem_append.mp h with h | h
    · exact ⟨t, List.mem_cons_self t rest, h⟩
    · obtain ⟨t', ht', hp⟩ := ih h
      exact ⟨t', List.mem_cons_of_mem _ ht', hp⟩

/-! ### Concrete inputs used by the witnesses and the counterexample -/

/-- An output carrying the key-value claim `(k, v)`. -/
def claimOutput (k v : Hash) : Output :=
  ⟨0, Content.custom (BitName.keyValue k v)⟩

/-- A transaction whose single output claims `(k, v)`. -/
def claimTx (k v : Hash) : Transaction :=
  ⟨[], [claimOutput k v]⟩

/-- A body with two transactions claiming the same key 0 with values 1, 2. -/
def dupBody : Body :=
  ⟨[claimTx 0 1, claimTx 0 2]⟩

/-- A body with one transaction claiming the two distinct keys 1 and 2. -/
def twoKeyBody : Body :=
  ⟨[⟨[], [claimOutput 1 10, claimOutput 2 20]⟩]⟩

/-- A transaction with only non-claim outputs. -/
def plainTx : Transaction :=
  ⟨[3], [⟨5, Content.value 42⟩, ⟨6, Content.withdrawal 7 8 9⟩]⟩

/-- A body made of the single non-claim transaction `plainTx`. -/
def plainBody : Body :=
  ⟨[plainTx]⟩

/-! ### Claim theorems -/

/-- Claim C1: for every table state and transaction, `validate_keys_unique`
(and hence `validate_filled_transaction`, which forwards to it) returns `Ok`
iff no output of the transaction carrying a key-value claim has its key
already present in the table, and otherwise it returns `KeyAlreadyExists`;
the check takes the table immutably in this embedding, so it cannot change
it (lookups are assumed not to fail, matching the claim's caveat). -/
theorem validate_keys_unique_correct (st : Table) (tx : Transaction) :
    (validate_keys_unique st tx = Except.ok () ↔
      ∀ o ∈ tx.outputs, ∀ k v,
        o.content = Content.custom (BitName.keyValue k v) → st k = none) ∧
    (validate_keys_unique st tx ≠ Except.ok () →
      validate_keys_unique st tx = Except.error Error.keyAlreadyExists) := by
  refine ⟨validate_keys_unique_eq_ok_iff st tx, ?_⟩
  intro h
  rcases checkOutputs_ok_or_error st tx.outputs with h0 | h0
  · exact absurd h0 h
  · exact h0

/-- Witness for C1 at a concrete table and transaction. -/
theorem validate_keys_unique_correct_witness :
    validate_keys_unique (Table.empty.put 1 2) (claimTx 1 9) =
      Except.error Error.keyAlreadyExists :=
  (validate_keys_unique_correct (Table.empty.put 1 2) (claimTx 1 9)).2
    (by decide)

/-- Claim C2: write-once — if the table maps `k` to `v`, then after any
sequence of bodies each validated by `validate_body` against the table state
preceding it and then committed by `connect_body`, the table still maps `k`
to `v`; entries are never overwritten or removed, including when bodies
carry intra-body duplicate claims of keys not yet in the table. -/
theorem write_once (st : Table) (bodies : List Body) (k v : Hash)
    (hchain : validatedChain st bodies) (hk : st k = some v) :
    applyBodies st bodies k = some v := by
  induction bodies generalizing st with
  | nil => exact hk
  | cons b rest ih =>
    obtain ⟨hval, hchain'⟩ := hchain
    refine ih (connect_body st 0 () b) hchain' ?_
    rw [connect_body_apply]
    have hnone : lookupLast (bodyClaims b) k = none := by
      apply lookupLast_eq_none_of_keys_ne
      intro p hmem
      obtain ⟨k0, v0⟩ := p
      intro hk0
      have hk0' : k0 = k := hk0
      subst hk0'
      obtain ⟨t, ht, hp⟩ := mem_txListClaims b.transactions (k0, v0) hmem
      have hok : validate_keys_unique st t = Except.ok () :=
        (validateTransactions_eq_ok_iff st b.transactions).mp hval t ht
      obtain ⟨o, ho, hoc⟩ := (mem_txClaims_iff t k0 v0).mp hp
      have hfresh := (validate_keys_unique_eq_ok_iff st t).mp hok o ho k0 v0 hoc
      rw [hk] at hfresh
      exact absurd hfresh (by simp)
    rw [hnone, overrideWith_none]
    exact hk

/-- Witness for C2: one validated body is committed over a table already
holding key 3; key 3 keeps its value. -/
theorem write_once_witness :
    applyBodies (Table.empty.put 3 4) [Body.mk [claimTx 5 6]] 3 = some 4 :=
  write_once (Table.empty.put 3 4) [Body.mk [claimTx 5 6]] 3 4
    ⟨by decide, trivial⟩ (by decide)

/-- Counterexample to claim C3: with `dupBody` (two transactions of one body
claiming key 0 with values 1 and 2, which validates against the empty
table), the pair `(0, 1)` is carried by a committed claim output, yet the
resulting table binds 0 to 2, not 1 — so the table's content is not the set
of all committed claim pairs. -/
theorem table_content_claim_set_cex :
    validatedChain Table.empty [dupBody] ∧
    (0, 1) ∈ chainClaims [dupBody] ∧
    applyBodies Table.empty [dupBody] 0 = some 2 ∧
    applyBodies Table.empty [dupBody] 0 ≠ some 1 := by
  refine ⟨⟨?_, trivial⟩, ?_, ?_, ?_⟩ <;> decide

/-- Claim C3 as amended: starting from the empty table, after any
validated-and-committed sequence of bodies, the table equals the claim pairs
of the committed transactions inserted in block, transaction, output order,
with a later claim of a key overwriting an earlier one (so each key maps to
its last committed claim's value, and unclaimed keys are absent) — rather
than the raw set of all committed claim pairs. -/
theorem table_content_eq_committed_claims (bodies : List Body)
    (hchain : validatedChain Table.empty bodies) (k : Hash) :
    applyBodies Table.empty bodies k =
      insertClaims Table.empty (chainClaims bodies) k := by
  rw [applyBodies_apply, insertClaims_apply]

/-- Witness for the amended C3 on the duplicate-claim body. -/
theorem table_content_eq_committed_claims_witness :
    applyBodies Table.empty [dupBody] 0 =
      insertClaims Table.empty (chainClaims [dupBody]) 0 :=
  table_content_eq_committed_claims [dupBody] ⟨by decide, trivial⟩ 0

/-- Claim C4: if the table maps `K` to `V`, every filled transaction
containing a claim of `K` (with any value) is rejected by
`validate_filled_transaction` with `KeyAlreadyExists`, and the table — never
mutated by validation, which takes it immutably — still maps `K` to `V`. -/
theorem claim_of_existing_key_rejected (st : Table) (K V V2 : Hash)
    (height : Nat) {σ : Type} (state : σ) (ft : FilledTransaction)
    (hK : st K = some V) (hclaim : (K, V2) ∈ txClaims ft.transaction) :
    validate_filled_transaction st height state ft =
      Except.error Error.keyAlreadyExists ∧ st K = some V := by
  refine ⟨?_, hK⟩
  have hne : validate_keys_unique st ft.transaction ≠ Except.ok () := by
    intro hok
    obtain ⟨o, ho, hoc⟩ := (mem_txClaims_iff ft.transaction K V2).mp hclaim
    have hfresh :=
      (validate_keys_unique_eq_ok_iff st ft.transaction).mp hok o ho K V2 hoc
    rw [hK] at hfresh
    exact absurd hfresh (by simp)
  rcases checkOutputs_ok_or_error st ft.transaction.outputs with h | h
  · exact absurd h hne
  · unfold validate_filled_transaction
    rw [show validate_keys_unique st ft.transaction =
        Except.error Error.keyAlreadyExists from h]

/-- Witness for C4 at a concrete table and filled transaction. -/
theorem claim_of_existing_key_rejected_witness :
    validate_filled_transaction (Table.empty.put 1 2) 7 ()
        (FilledTransaction.mk [] (claimTx 1 3)) =
      Except.error Error.keyAlreadyExists ∧
    (Table.empty.put 1 2) 1 = some 2 :=
  claim_of_existing_key_rejected (Table.empty.put 1 2) 1 2 3 7 ()
    (FilledTransaction.mk [] (claimTx 1 3)) (by decide) (by decide)

/-- Claim C5: `validate_body` checks each transaction only against the
already-committed snapshot — it succeeds iff every transaction individually
passes `validate_keys_unique` against the same table — so a body of two
transactions whose claims all target one key `K` absent from the table (each
transaction claiming `K`, possibly with different values) passes. -/
theorem validate_body_snapshot_only :
    (∀ (st : Table) (height : Nat) (σ : Type) (state : σ) (body : Body),
      validate_body st height state body = Except.ok () ↔
        ∀ t ∈ body.transactions,
          validate_keys_unique st t = Except.ok ()) ∧
    (∀ (st : Table) (K V1 V2 : Hash) (t1 t2 : Transaction),
      st K = none →
      (K, V1) ∈ txClaims t1 →
      (K, V2) ∈ txClaims t2 →
      (∀ p ∈ txClaims t1 ++ txClaims t2, p.1 = K) →
      validate_body st 0 () (Body.mk [t1, t2]) = Except.ok ()) := by
  constructor
  · intro st height σ state body
    exact validateTransactions_eq_ok_iff st body.transactions
  · intro st K V1 V2 t1 t2 hK h1 h2 hall
    have hok : ∀ t ∈ [t1, t2], validate_keys_unique st t = Except.ok () := by
      intro t ht
      rw [validate_keys_unique_eq_ok_iff]
      intro o ho k v hoc
      have hmem : (k, v) ∈ txClaims t :=
        (mem_txClaims_iff t k v).mpr ⟨o, ho, hoc⟩
      have hkK : k = K := by
        rcases List.mem_cons.mp ht with rfl | ht'
        · exact hall (k, v) (List.mem_append.mpr (Or.inl hmem))
        · rcases List.mem_cons.mp ht' with rfl | h0
          · exact hall (k, v) (List.mem_append.mpr (Or.inr hmem))
          · exact absurd h0 (List.not_mem_nil t)
      rw [hkK]
      exact hK
    exact (validateTransactions_eq_ok_iff st [t1, t2]).mpr hok

/-- Witness for C5: both transactions of `dupBody` claim key 0, absent from
the empty table, and the body passes `validate_body`. -/
theorem validate_body_snapshot_only_witness :
    validate_body Table.empty 0 () dupBody = Except.ok () :=
  validate_body_snapshot_only.2 Table.empty 0 1 2 (claimTx 0 1) (claimTx 0 2)
    (by decide) (by decide) (by decide) (by decide)

/-- Claim C6: `connect_body` performs no uniqueness re-check — for every
table it writes every claim in transaction order then output order, so after
it a key is bound to the value of the last claim of that key in iteration
order (`lookupLast` of the body's claims), and a key with no claim in the
body keeps its previous binding. -/
theorem connect_body_last_write_wins (st : Table) (height : Nat) {σ : Type}
    (state : σ) (body : Body) (k : Hash) :
    (∀ v, lookupLast (bodyClaims body) k = some v →
      connect_body st height state body k = some v) ∧
    (lookupLast (bodyClaims body) k = none →
      connect_body st height state body k = st k) := by
  constructor
  · intro v hv
    rw [connect_body_apply, hv, overrideWith_some]
  · intro hnone
    rw [connect_body_apply, hnone, overrideWith_none]

/-- Witness for C6: committing `dupBody` (claims `(0,1)` then `(0,2)`) over
a table already holding key 0 ends with key 0 bound to 2, the later write. -/
theorem connect_body_last_write_wins_witness :
    connect_body (Table.empty.put 0 9) 11 () dupBody 0 = some 2 :=
  (connect_body_last_write_wins (Table.empty.put 0 9) 11 () dupBody 0).1 2
    (by decide)

/-- Claim C7: committing a body whose claims are exactly `(K1,V1)` and
`(K2,V2)` for distinct keys absent from the table binds `K1` to `V1` and
`K2` to `V2`. -/
theorem commit_two_fresh_keys (st : Table) (height : Nat) {σ : Type}
    (state : σ) (K1 V1 K2 V2 : Hash) (body : Body)
    (hne : K1 ≠ K2) (h1 : st K1 = none) (h2 : st K2 = none)
    (hclaims : bodyClaims body = [(K1, V1), (K2, V2)]) :
    connect_body st height state body K1 = some V1 ∧
    connect_body st height state body K2 = some V2 := by
  constructor
  · rw [connect_body_apply, hclaims]
    have hx : lookupLast [(K1, V1), (K2, V2)] K1 = some V1 := by
      simp [lookupLast, hne]
    rw [hx, overrideWith_some]
  · rw [connect_body_apply, hclaims]
    have hx : lookupLast [(K1, V1), (K2, V2)] K2 = some V2 := by
      simp [lookupLast]
    rw [hx, overrideWith_some]

/-- Witness for C7 on `twoKeyBody` over the empty table. -/
theorem commit_two_fresh_keys_witness :
    connect_body Table.empty 1 () twoKeyBody 1 = some 10 ∧
    connect_body Table.empty 1 () twoKeyBody 2 = some 20 :=
  commit_two_fresh_keys Table.empty 1 () 1 10 2 20 twoKeyBody
    (by decide) (by decide) (by decide) (by decide)

/-- Claim C8: `validate_filled_transaction` returns exactly the result of
`validate_keys_unique` on the inner transaction, and its result does not
depend on the height or ledger-state arguments. -/
theorem validate_filled_transaction_is_wrapper (st : Table)
    (ft : FilledTransaction) (h1 h2 : Nat) {σ1 σ2 : Type}
    (s1 : σ1) (s2 : σ2) :
    validate_filled_transaction st h1 s1 ft =
      validate_keys_unique st ft.transaction ∧
    validate_filled_transaction st h1 s1 ft =
      validate_filled_transaction st h2 s2 ft := by
  constructor
  · unfold validate_filled_transaction
    cases h : validate_keys_unique st ft.transaction with
    | ok u => cases u; rfl
    | error e => rfl
  · rfl

/-- Claim C9: a transaction (or body) carrying no key-value claim passes
`validate_keys_unique`, `validate_filled_transaction` and `validate_body`
for every table, and `connect_body` on such a body leaves every table entry
unchanged. -/
theorem no_claims_trivially_valid (st : Table) (height : Nat) {σ : Type}
    (state : σ) (tx : Transaction) (spent : List Output) (body : Body)
    (htx : txClaims tx = [])
    (hbody : ∀ t ∈ body.transactions, txClaims t = []) :
    validate_keys_unique st tx = Except.ok () ∧
    validate_filled_transaction st height state
      (FilledTransaction.mk spent tx) = Except.ok () ∧
    validate_body st height state body = Except.ok () ∧
    ∀ k, connect_body st height state body k = st k := by
  have hA : validate_keys_unique st tx = Except.ok () := by
    rw [validate_keys_unique_eq_ok_iff]
    intro o ho k v hoc
    have hm : (k, v) ∈ txClaims tx := (mem_txClaims_iff tx k v).mpr ⟨o, ho, hoc⟩
    rw [htx] at hm
    exact absurd hm (List.not_mem_nil (k, v))
  refine ⟨hA, ?_, ?_, ?_⟩
  · unfold validate_filled_transaction
    rw [show validate_keys_unique st (FilledTransaction.mk spent tx).transaction
        = Except.ok () from hA]
  · have hall : ∀ t ∈ body.transactions,
        validate_keys_unique st t = Except.ok () := by
      intro t ht
      rw [validate_keys_unique_eq_ok_iff]
      intro o ho k v hoc
      have hm : (k, v) ∈ txClaims t := (mem_txClaims_iff t k v).mpr ⟨o, ho, hoc⟩
      rw [hbody t ht] at hm
      exact absurd hm (List.not_mem_nil (k, v))
    exact (validateTransactions_eq_ok_iff st body.transactions).mpr hall
  · intro k
    rw [connect_body_apply]
    have hb0 : lookupLast (bodyClaims body) k = none := by
      apply lookupLast_eq_none_of_keys_ne
      intro p hp
      obtain ⟨t, ht, hpt⟩ := mem_txListClaims body.transactions p hp
      rw [hbody t ht] at hpt
      exact absurd hpt (List.not_mem_nil p)
    rw [hb0, overrideWith_none]

/-- Witness for C9 on the claim-free transaction and body. -/
theorem no_claims_trivially_valid_witness :
    validate_keys_unique (Table.empty.put 5 5) plainTx = Except.ok () ∧
    validate_filled_transaction (Table.empty.put 5 5) 2 ()
      (FilledTransaction.mk [] plainTx) = Except.ok () ∧
    validate_body (Table.empty.put 5 5) 2 () plainBody = Except.ok () ∧
    ∀ k, connect_body (Table.empty.put 5 5) 2 () plainBody k =
      (Table.empty.put 5 5) k :=
  no_claims_trivially_valid (Table.empty.put 5 5) 2 () plainTx [] plainBody
    (by decide) (by decide)

/-- Claim C10: validation ignores claim values — transactions (and bodies)
that agree after erasing the value field of every key-value claim (keys,
addresses, inputs and non-claim outputs held fixed) produce the same result
under `validate_keys_unique`, `validate_filled_transaction` and
`validate_body`, for every table. -/
theorem validation_ignores_values (st : Table) (height : Nat) {σ : Type}
    (state : σ) (t t' : Transaction) (spent spent' : List Output)
    (b b' : Body)
    (ht : eraseValues t = eraseValues t')
    (hb : b.transactions.map eraseValues = b'.transactions.map eraseValues) :
    validate_keys_unique st t = validate_keys_unique st t' ∧
    validate_filled_transaction st height state
        (FilledTransaction.mk spent t) =
      validate_filled_transaction st height state
        (FilledTransaction.mk spent' t') ∧
    validate_body st height state b = validate_body st height state b' := by
  have key : ∀ u u' : Transaction, eraseValues u = eraseValues u' →
      validate_keys_unique st u = validate_keys_unique st u' := by
    intro u u' hu
    rw [← validate_keys_unique_erase st u, hu, validate_keys_unique_erase]
  refine ⟨key t t' ht, ?_, ?_⟩
  · unfold validate_filled_transaction
    rw [show validate_keys_unique st
          (FilledTransaction.mk spent t).transaction =
        validate_keys_unique st t' from key t t' ht]
  · have keyList : ∀ ts ts' : List Transaction,
        ts.map eraseValues = ts'.map eraseValues →
        validateTransactions st ts = validateTransactions st ts' := by
      intro ts
      induction ts with
      | nil =>
        intro ts' h
        cases ts' with
        | nil => rfl
        | cons a as => simp at h
      | cons a as ih =>
        intro ts' h
        cases ts' with
        | nil => simp at h
        | cons a' as' =>
          simp only [List.map_cons, List.cons.injEq] at h
          simp only [validateTransactions]
          rw [key a a' h.1, ih as' h.2]
    exact keyList b.transactions b'.transactions hb

/-- Witness for C10: two transactions claiming key 4 with different values
validate identically, as do the bodies built from them. -/
theorem validation_ignores_values_witness :
    validate_keys_unique Table.empty (claimTx 4 1) =
      validate_keys_unique Table.empty (claimTx 4 2) ∧
    validate_filled_transaction Table.empty 3 ()
        (FilledTransaction.mk [] (claimTx 4 1)) =
      validate_filled_transaction Table.empty 3 ()
        (FilledTransaction.mk [] (claimTx 4 2)) ∧
    validate_body Table.empty 3 () (Body.mk [claimTx 4 1]) =
      validate_body Table.empty 3 () (Body.mk [claimTx 4 2]) :=
  validation_ignores_values Table.empty 3 () (claimTx 4 1) (claimTx 4 2)
    [] [] (Body.mk [claimTx 4 1]) (Body.mk [claimTx 4 2])
    (by decide) (by decide)

end BitNames
